import Mathlib

/-!
Verification of the outage interval reconciliation engine described in the
design document of this repository, together with the rule evaluator
`get_action` of `src/instance_control.py`.

The importer module that implements `Conflate` and the `Reconciler` is not
part of the checked-in sources; only its unit tests
(`src/tests/test_importer.py`) are.  The reconciliation definitions below are
therefore modelled from the design document (sections 3 and 4) and validated
against the concrete vectors of those tests.  Instants and spans are embedded
as integers.
-/

namespace LIC

/-- Modelled from the spec: the `Interval` value type of section 3, defined in
the absent importer module.  `start` is an instant, `duration` a span and
`status` the endpoint status string (for example `up` or `down`). -/
structure Interval where
  start : Int
  duration : Int
  status : String
deriving DecidableEq

/-- Derived attribute of section 3: `end = start + duration`. -/
def Interval.endTime (i : Interval) : Int := i.start + i.duration

/-- Modelled from the spec: the tagged outcome of `Conflate` in section 4.1,
`Discard | Keep(Interval) | Merge(Interval)`; the status-mismatch branch
returns the candidate unchanged through `Keep`. -/
inductive Outcome where
  | Discard : Outcome
  | Keep : Interval → Outcome
  | Merge : Interval → Outcome
deriving DecidableEq

/-- Modelled from the spec: `Conflate(old, new)` of section 4.1, defined in
the absent importer module.  With `old` absent the candidate is kept; with
`old` present the candidate is discarded when `new.end < old.end`, kept
unchanged when the statuses differ, and otherwise merged into a single
interval `start = old.start`, `duration = new.end - old.start`,
`status = old.status`. -/
def conflate : Option Interval → Interval → Outcome
  | none, n => .Keep n
  | some o, n =>
    if n.endTime < o.endTime then .Discard
    else if o.status ≠ n.status then .Keep n
    else .Merge ⟨o.start, n.endTime - o.start, o.status⟩

/-- Modelled from the spec: one step of the Reconciler fold of section 4.2.
`orig` is the original stored tail, the state is the pair of the current tail
and the emitted list.  Discard leaves the state unchanged; Keep finalizes the
current tail (queued only when present and distinct from the original stored
tail) and installs the kept interval; Merge installs the merged interval. -/
def reconcileStep (orig : Option Interval) (st : Option Interval × List Interval)
    (c : Interval) : Option Interval × List Interval :=
  match conflate st.1 c with
  | .Discard => st
  | .Keep i =>
    match st.1 with
    | some cur => if orig ≠ some cur then (some i, st.2 ++ [cur]) else (some i, st.2)
    | none => (some i, st.2)
  | .Merge i => (some i, st.2)

/-- Modelled from the spec: the Reconciler loop of section 4.2 as a left fold
of `reconcileStep` over the candidate batch. -/
def reconcileFold (orig : Option Interval) (st : Option Interval × List Interval)
    (cands : List Interval) : Option Interval × List Interval :=
  cands.foldl (reconcileStep orig) st

/-- Modelled from the spec: the final step of section 4.2.  After the loop the
current tail is appended to the emitted list when it is present and differs by
value from the original stored tail. -/
def finalizeTail (orig : Option Interval) (st : Option Interval × List Interval) :
    List Interval :=
  match st.1 with
  | some cur => if orig ≠ some cur then st.2 ++ [cur] else st.2
  | none => st.2

/-- Modelled from the spec: `Reconciler(storedTail, candidates) -> WriteSet`
of section 4.2, defined in the absent importer module. -/
def reconcile (storedTail : Option Interval) (cands : List Interval) : List Interval :=
  finalizeTail storedTail (reconcileFold storedTail (storedTail, []) cands)

/-- The last emitted interval when any, otherwise the original stored tail.
Used to restate the replay property of section 8. -/
def lastTail (storedTail : Option Interval) (emitted : List Interval) : Option Interval :=
  match emitted.getLast? with
  | some e => some e
  | none => storedTail

/-- C1: for a present stored interval and a candidate of the same status whose
end is at least the stored end, Conflate merges: the result starts at the old
start, keeps the old status, has duration `new.end - old.start`, and its end
is `max(old.end, new.end)`. -/
theorem C1_conflate_merge (o n : Interval) (hst : o.status = n.status)
    (hend : o.endTime ≤ n.endTime) :
    conflate (some o) n = Outcome.Merge ⟨o.start, n.endTime - o.start, o.status⟩ ∧
    (⟨o.start, n.endTime - o.start, o.status⟩ : Interval).endTime
      = max o.endTime n.endTime := by
  refine ⟨?_, ?_⟩
  · simp [conflate, not_lt.mpr hend, hst]
  · rw [max_eq_right hend]
    simp only [Interval.endTime]
    omega

/-- Witness for C1 at the vector of `test_touching_same`. -/
theorem C1_witness :
    conflate (some ⟨1000, 1000, "up"⟩) ⟨2000, 1000, "up"⟩
      = Outcome.Merge ⟨1000, Interval.endTime ⟨2000, 1000, "up"⟩ - 1000, "up"⟩ ∧
    (⟨1000, Interval.endTime ⟨2000, 1000, "up"⟩ - 1000, "up"⟩ : Interval).endTime
      = max (Interval.endTime ⟨1000, 1000, "up"⟩) (Interval.endTime ⟨2000, 1000, "up"⟩) :=
  C1_conflate_merge ⟨1000, 1000, "up"⟩ ⟨2000, 1000, "up"⟩ rfl (by decide)

/-- C3: for a present stored interval and a candidate with an end at least the
stored end but a different status, Conflate returns the candidate unchanged
and nothing else. -/
theorem C3_conflate_keep (o n : Interval) (hend : o.endTime ≤ n.endTime)
    (hst : o.status ≠ n.status) : conflate (some o) n = Outcome.Keep n := by
  simp [conflate, not_lt.mpr hend, hst]

/-- Witness for C3 at the vector of `test_late_overlap_different`. -/
theorem C3_witness :
    conflate (some ⟨1000, 1500, "up"⟩) ⟨2000, 1000, "down"⟩
      = Outcome.Keep ⟨2000, 1000, "down"⟩ :=
  C3_conflate_keep ⟨1000, 1500, "up"⟩ ⟨2000, 1000, "down"⟩ (by decide) (by decide)

/-- C9: on the stated domain (old absent, or non-negative durations with the
candidate starting no earlier), Conflate is total and returns exactly one of
the three outcomes. -/
theorem C9_conflate_total (old : Option Interval) (n : Interval)
    (_h : old = none ∨ ∃ t, old = some t ∧ 0 ≤ t.duration ∧ 0 ≤ n.duration ∧
          t.start ≤ n.start) :
    conflate old n = Outcome.Discard ∨
    (∃ i, conflate old n = Outcome.Keep i) ∨
    (∃ i, conflate old n = Outcome.Merge i) := by
  cases hc : conflate old n with
  | Discard => exact Or.inl rfl
  | Keep i => exact Or.inr (Or.inl ⟨i, rfl⟩)
  | Merge i => exact Or.inr (Or.inr ⟨i, rfl⟩)

/-- Witness for C9 at a cold-start input. -/
theorem C9_witness :
    conflate none ⟨0, 1, "up"⟩ = Outcome.Discard ∨
    (∃ i, conflate none ⟨0, 1, "up"⟩ = Outcome.Keep i) ∨
    (∃ i, conflate none ⟨0, 1, "up"⟩ = Outcome.Merge i) :=
  C9_conflate_total none ⟨0, 1, "up"⟩ (Or.inl rfl)

/-- Unfolding lemma: a discarded candidate leaves the fold state untouched. -/
theorem step_discard (orig : Option Interval) (t : Interval) (em : List Interval)
    (c : Interval) (hlt : c.endTime < t.endTime) :
    reconcileStep orig (some t, em) c = (some t, em) := by
  simp [reconcileStep, conflate, hlt]

/-- Unfolding lemma: a status-mismatch candidate replaces the current tail,
queueing the previous tail when it differs from the original stored tail. -/
theorem step_keep (orig : Option Interval) (t : Interval) (em : List Interval)
    (c : Interval) (hlt : ¬ c.endTime < t.endTime) (hst : t.status ≠ c.status) :
    reconcileStep orig (some t, em) c
      = (some c, if orig ≠ some t then em ++ [t] else em) := by
  by_cases horig : orig = some t <;>
    simp [reconcileStep, conflate, hlt, hst, horig]

/-- Unfolding lemma: a same-status candidate reaching at least as far as the
current tail is merged into it. -/
theorem step_merge (orig : Option Interval) (t : Interval) (em : List Interval)
    (c : Interval) (hlt : ¬ c.endTime < t.endTime) (hst : t.status = c.status) :
    reconcileStep orig (some t, em) c
      = (some ⟨t.start, c.endTime - t.start, t.status⟩, em) := by
  simp [reconcileStep, conflate, hlt, hst]

/-- Unfolding lemma: with no current tail the candidate is installed. -/
theorem step_none (orig : Option Interval) (em : List Interval) (c : Interval) :
    reconcileStep orig (none, em) c = (some c, em) := rfl

/-- Unfolding lemma: the fold over a cons processes the head first. -/
theorem fold_cons (orig : Option Interval) (st : Option Interval × List Interval)
    (c : Interval) (cs : List Interval) :
    reconcileFold orig st (c :: cs) = reconcileFold orig (reconcileStep orig st c) cs := rfl

/-- Unfolding lemma: the fold over the empty batch is the identity. -/
theorem fold_nil (orig : Option Interval) (st : Option Interval × List Interval) :
    reconcileFold orig st [] = st := rfl

/-- C2 (amended): Conflate on a present stored interval returns Discard
exactly when the candidate end is strictly below the stored end, and the
Reconciler step for a discarded candidate leaves both the current tail and
the emitted list unchanged, so a discarded occurrence contributes nothing to
the write set. -/
theorem C2_discard_inert :
    (∀ o n : Interval, conflate (some o) n = Outcome.Discard ↔ n.endTime < o.endTime) ∧
    (∀ (orig cur : Option Interval) (em : List Interval) (c : Interval),
        conflate cur c = Outcome.Discard →
        reconcileStep orig (cur, em) c = (cur, em)) := by
  refine ⟨fun o n => ⟨fun h => ?_, fun h => ?_⟩, fun orig cur em c h => ?_⟩
  · by_contra hn
    simp only [conflate, if_neg hn] at h
    split at h <;> simp at h
  · simp [conflate, h]
  · simp [reconcileStep, h]

/-- Witness for C2 at the vector of `test_early_overlap_same`. -/
theorem C2_witness :
    (conflate (some ⟨2000, 1000, "up"⟩) ⟨1000, 1500, "up"⟩ = Outcome.Discard ↔
      Interval.endTime ⟨1000, 1500, "up"⟩ < Interval.endTime ⟨2000, 1000, "up"⟩) ∧
    reconcileStep none (some ⟨2000, 1000, "up"⟩, []) ⟨1000, 1500, "up"⟩
      = (some ⟨2000, 1000, "up"⟩, []) :=
  ⟨C2_discard_inert.1 ⟨2000, 1000, "up"⟩ ⟨1000, 1500, "up"⟩,
    C2_discard_inert.2 none (some ⟨2000, 1000, "up"⟩) [] ⟨1000, 1500, "up"⟩ (by decide)⟩

/-- C2 counterexample: with a duplicated candidate value the literal reading
fails.  In the batch below the third candidate is discarded (the fold state
when it is reached is the stored pair shown, and Conflate on it returns
Discard), yet an equal-valued interval is present in the emitted write set,
so a discarded candidate is not absent from the write set by value. -/
theorem C2_counterexample :
    reconcileFold none (none, []) [⟨0, 10, "up"⟩, ⟨0, 15, "down"⟩]
      = (some ⟨0, 15, "down"⟩, [⟨0, 10, "up"⟩]) ∧
    conflate (some ⟨0, 15, "down"⟩) ⟨0, 10, "up"⟩ = Outcome.Discard ∧
    reconcile none [⟨0, 10, "up"⟩, ⟨0, 15, "down"⟩, ⟨0, 10, "up"⟩]
      = [⟨0, 10, "up"⟩, ⟨0, 15, "down"⟩] ∧
    (⟨0, 10, "up"⟩ : Interval)
      ∈ reconcile none [⟨0, 10, "up"⟩, ⟨0, 15, "down"⟩, ⟨0, 10, "up"⟩] := by
  refine ⟨by decide, by decide, by decide, by decide⟩

/-- Helper for C6: when every candidate falls strictly inside the stored end,
each step discards and the fold state never moves. -/
theorem fold_all_discard (cs : List Interval) :
    ∀ (orig : Option Interval) (t : Interval) (em : List Interval),
    (∀ c ∈ cs, c.endTime < t.endTime) →
    reconcileFold orig (some t, em) cs = (some t, em) := by
  induction cs with
  | nil => intro orig t em _; rfl
  | cons c cs ih =>
    intro orig t em h
    rw [fold_cons, step_discard orig t em c (h c (List.mem_cons_self c cs))]
    exact ih orig t em fun x hx => h x (List.mem_cons_of_mem c hx)

/-- C6: the final current tail is appended to the emitted list exactly when it
differs by value from the original stored tail, and when every candidate ends
strictly before the stored end the write set is empty, so the unchanged
stored tail is never rewritten. -/
theorem C6_final_append :
    (∀ (T : Option Interval) (cands : List Interval) (u : Interval)
        (EM : List Interval),
        reconcileFold T (T, []) cands = (some u, EM) →
        reconcile T cands = if T = some u then EM else EM ++ [u]) ∧
    (∀ (t : Interval) (cands : List Interval),
        (∀ c ∈ cands, c.endTime < t.endTime) →
        reconcile (some t) cands = []) := by
  constructor
  · intro T cands u EM h
    unfold reconcile
    rw [h]
    by_cases hT : T = some u <;> simp [finalizeTail, hT]
  · intro t cands h
    simp [reconcile, fold_all_discard cands (some t) t [] h, finalizeTail]

/-- Witness for C6: a cold-start insert is appended, and a batch of strictly
earlier candidates produces no writes. -/
theorem C6_witness :
    (reconcile none [⟨5, 3, "up"⟩]
      = if (none : Option Interval) = some ⟨5, 3, "up"⟩ then [] else [] ++ [⟨5, 3, "up"⟩]) ∧
    reconcile (some ⟨2000, 1000, "down"⟩) [⟨1000, 1500, "down"⟩, ⟨1000, 1600, "up"⟩] = [] :=
  ⟨C6_final_append.1 none [⟨5, 3, "up"⟩] ⟨5, 3, "up"⟩ [] (by decide),
    C6_final_append.2 ⟨2000, 1000, "down"⟩ [⟨1000, 1500, "down"⟩, ⟨1000, 1600, "up"⟩]
      (by decide)⟩

/-- C8: with the stored interval absent, Conflate keeps any candidate
unchanged, and on a cold start the Reconciler installs the first candidate as
the current tail with nothing emitted, after which the remaining candidates
fold normally. -/
theorem C8_cold_start :
    (∀ n : Interval, conflate none n = Outcome.Keep n) ∧
    (∀ (c : Interval) (cs : List Interval),
        reconcileFold none (none, []) (c :: cs) = reconcileFold none (some c, []) cs) :=
  ⟨fun _ => rfl, fun _ _ => rfl⟩

/-- The end of the last interval in a list, with a default for the empty
list.  Used to describe the result of a run of merges. -/
def lastEnd (d : Int) : List Interval → Int
  | [] => d
  | c :: cs => lastEnd c.endTime cs

/-- Each interval of the list ends strictly after the previous one, the first
strictly after `a`.  This is the shape of a batch in which every candidate
extends the current tail. -/
def extendsChain (a : Int) : List Interval → Bool
  | [] => true
  | c :: cs => (decide (a < c.endTime)) && extendsChain c.endTime cs

/-- Computation rule for the end of a literally built interval. -/
theorem mk_endTime (s e : Int) (st : String) :
    (⟨s, e - s, st⟩ : Interval).endTime = e := by
  simp [Interval.endTime]

/-- Rebuilding an interval from its start, end and status yields it back. -/
theorem mk_self (t : Interval) :
    (⟨t.start, t.endTime - t.start, t.status⟩ : Interval) = t := by
  cases t
  simp [Interval.endTime]

/-- Helper for C7: a run of same-status candidates in which each strictly
extends the current tail is absorbed by successive merges; nothing is emitted
and the final tail starts at the original start and reaches the last end. -/
theorem fold_merge_run (cs : List Interval) :
    ∀ (orig : Option Interval) (t : Interval) (em : List Interval),
    (∀ c ∈ cs, t.status = c.status) →
    extendsChain t.endTime cs = true →
    reconcileFold orig (some t, em) cs
      = (some ⟨t.start, lastEnd t.endTime cs - t.start, t.status⟩, em) := by
  induction cs with
  | nil =>
    intro orig t em _ _
    rw [fold_nil]
    simp [lastEnd, mk_self]
  | cons c cs ih =>
    intro orig t em hst hch
    simp only [extendsChain, Bool.and_eq_true, decide_eq_true_eq] at hch
    obtain ⟨hlt, hch2⟩ := hch
    rw [fold_cons,
      step_merge orig t em c (not_lt.mpr (le_of_lt hlt)) (hst c (List.mem_cons_self c cs))]
    have hM : (⟨t.start, c.endTime - t.start, t.status⟩ : Interval).endTime = c.endTime :=
      mk_endTime t.start c.endTime t.status
    rw [ih orig ⟨t.start, c.endTime - t.start, t.status⟩ em
      (fun x hx => hst x (List.mem_cons_of_mem c hx)) (by rw [hM]; exact hch2)]
    simp [lastEnd, hM]

/-- Helper for C7: a nonempty strictly extending chain ends strictly after its
starting point. -/
theorem lastEnd_lt (cs : List Interval) :
    ∀ a : Int, extendsChain a cs = true → cs ≠ [] → a < lastEnd a cs := by
  induction cs with
  | nil => intro a _ h; exact absurd rfl h
  | cons c cs ih =>
    intro a hch _
    simp only [extendsChain, Bool.and_eq_true, decide_eq_true_eq] at hch
    obtain ⟨hlt, hch2⟩ := hch
    rw [lastEnd]
    cases cs with
    | nil => simpa [lastEnd] using hlt
    | cons d ds => exact lt_trans hlt (ih c.endTime hch2 (by simp))

/-- C7: a batch of two or more same-status candidates, each strictly
extending the current tail, produces exactly one emitted interval: the merge
reaching the end of the last candidate, never one entry per candidate. -/
theorem C7_single_merge (t : Interval) (cands : List Interval)
    (hlen : 2 ≤ cands.length)
    (hst : ∀ c ∈ cands, t.status = c.status)
    (hch : extendsChain t.endTime cands = true) :
    reconcile (some t) cands
      = [⟨t.start, lastEnd t.endTime cands - t.start, t.status⟩] := by
  have hne : cands ≠ [] := by
    intro h
    rw [h] at hlen
    simp at hlen
  have hlt := lastEnd_lt cands t.endTime hch hne
  unfold reconcile
  rw [fold_merge_run cands (some t) t [] hst hch]
  have hne2 : some t ≠ some (⟨t.start, lastEnd t.endTime cands - t.start, t.status⟩ :
      Interval) := by
    intro h
    have h3 : t.duration = lastEnd t.endTime cands - t.start :=
      congrArg Interval.duration (Option.some.inj h)
    have h4 : t.endTime = t.start + t.duration := rfl
    omega
  simp [finalizeTail, hne2]

/-- Witness for C7 at a batch of two overlapping same-status candidates. -/
theorem C7_witness :
    reconcile (some ⟨0, 10, "up"⟩) [⟨5, 10, "up"⟩, ⟨12, 8, "up"⟩]
      = [⟨0, lastEnd (Interval.endTime ⟨0, 10, "up"⟩) [⟨5, 10, "up"⟩, ⟨12, 8, "up"⟩] - 0,
          "up"⟩] :=
  C7_single_merge ⟨0, 10, "up"⟩ [⟨5, 10, "up"⟩, ⟨12, 8, "up"⟩]
    (by decide) (by decide) (by decide)

/-- Candidates ordered by start time. -/
def startLE (a b : Interval) : Prop := a.start ≤ b.start

instance : DecidableRel startLE :=
  fun a b => inferInstanceAs (Decidable (a.start ≤ b.start))

/-- The stored tail, when present, starts no later than the interval. -/
def optStartLE : Option Interval → Interval → Prop
  | none, _ => True
  | some t, c => t.start ≤ c.start

instance (o : Option Interval) (c : Interval) : Decidable (optStartLE o c) :=
  match o with
  | none => isTrue trivial
  | some t => inferInstanceAs (Decidable (t.start ≤ c.start))

/-- Helper for C5: the fold keeps the emitted list sorted by start, with
every emitted start bounded by the start of the current tail, provided the
pending candidates start no earlier than the current tail. -/
theorem fold_sorted (cs : List Interval) :
    ∀ (orig cur : Option Interval) (em : List Interval),
    List.Pairwise startLE cs →
    List.Pairwise startLE em →
    (∀ e ∈ em, ∀ u, cur = some u → startLE e u) →
    (cur = none → em = []) →
    (∀ u, cur = some u → ∀ c ∈ cs, u.start ≤ c.start) →
    List.Pairwise startLE (reconcileFold orig (cur, em) cs).2 ∧
    (∀ e ∈ (reconcileFold orig (cur, em) cs).2, ∀ u,
        (reconcileFold orig (cur, em) cs).1 = some u → startLE e u) ∧
    ((reconcileFold orig (cur, em) cs).1 = none →
        (reconcileFold orig (cur, em) cs).2 = []) := by
  induction cs with
  | nil =>
    intro orig cur em _ hem hrel hnone _
    exact ⟨hem, hrel, hnone⟩
  | cons c cs ih =>
    intro orig cur em hcs hem hrel hnone hlast
    have hcs2 := (List.pairwise_cons.mp hcs).2
    have hchead := (List.pairwise_cons.mp hcs).1
    cases cur with
    | none =>
      rw [hnone rfl]
      rw [fold_cons, step_none]
      refine ih orig (some c) [] hcs2 (by simp) (by simp) (by simp) ?_
      intro u hu x hx
      rw [← Option.some.inj hu]
      exact hchead x hx
    | some t =>
      by_cases hdlt : c.endTime < t.endTime
      · rw [fold_cons, step_discard orig t em c hdlt]
        refine ih orig (some t) em hcs2 hem hrel (by simp) ?_
        intro u hu x hx
        exact hlast u hu x (List.mem_cons_of_mem c hx)
      · by_cases hst : t.status = c.status
        · rw [fold_cons, step_merge orig t em c hdlt hst]
          refine ih orig (some ⟨t.start, c.endTime - t.start, t.status⟩) em hcs2 hem
            ?_ (by simp) ?_
          · intro e he u hu
            rw [← Option.some.inj hu]
            exact hrel e he t rfl
          · intro u hu x hx
            rw [← Option.some.inj hu]
            exact hlast t rfl x (List.mem_cons_of_mem c hx)
        · rw [fold_cons, step_keep orig t em c hdlt hst]
          have hbound : ∀ e ∈ em ++ [t], startLE e c := by
            intro e he
            rcases List.mem_append.mp he with h1 | h2
            · exact le_trans (hrel e h1 t rfl) (hlast t rfl c (List.mem_cons_self c cs))
            · rw [List.mem_singleton.mp h2]
              exact hlast t rfl c (List.mem_cons_self c cs)
          have hpair : List.Pairwise startLE (em ++ [t]) := by
            rw [List.pairwise_append]
            refine ⟨hem, by simp, ?_⟩
            intro a ha b hb
            rw [List.mem_singleton.mp hb]
            exact hrel a ha t rfl
          by_cases horig : orig = some t
          · rw [if_neg (show ¬ orig ≠ some t from fun hn => hn horig)]
            refine ih orig (some c) em hcs2 hem ?_ (by simp) ?_
            · intro e he u hu
              rw [← Option.some.inj hu]
              exact hbound e (List.mem_append.mpr (Or.inl he))
            · intro u hu x hx
              rw [← Option.some.inj hu]
              exact hchead x hx
          · rw [if_pos horig]
            refine ih orig (some c) (em ++ [t]) hcs2 hpair ?_ (by simp) ?_
            · intro e he u hu
              rw [← Option.some.inj hu]
              exact hbound e he
            · intro u hu x hx
              rw [← Option.some.inj hu]
              exact hchead x hx

/-- C5 (amended): when the candidate batch is sorted ascending by start and
every candidate starts no earlier than the stored tail, the emitted write set
is sorted ascending by start. -/
theorem C5_order (T : Option Interval) (cands : List Interval)
    (hs : List.Pairwise startLE cands)
    (hT : ∀ c ∈ cands, optStartLE T c) :
    List.Pairwise startLE (reconcile T cands) := by
  obtain ⟨h1, h2, h3⟩ := fold_sorted cands T T [] hs (by simp) (by simp) (fun _ => rfl)
    (by intro u hu c hc; have h := hT c hc; rw [hu] at h; exact h)
  rcases hp : reconcileFold T (T, []) cands with ⟨cur, em⟩
  rw [hp] at h1 h2 h3
  unfold reconcile
  rw [hp]
  unfold finalizeTail
  cases cur with
  | none => exact h1
  | some u =>
    dsimp only
    split
    · rw [List.pairwise_append]
      refine ⟨h1, by simp, ?_⟩
      intro a ha b hb
      rw [List.mem_singleton.mp hb]
      exact h2 a ha u rfl
    · exact h1

/-- Witness for C5 at a sorted batch starting at or after the stored tail. -/
theorem C5_witness :
    List.Pairwise startLE (reconcile (some ⟨0, 5, "up"⟩) [⟨1, 9, "down"⟩, ⟨2, 10, "up"⟩]) :=
  C5_order (some ⟨0, 5, "up"⟩) [⟨1, 9, "down"⟩, ⟨2, 10, "up"⟩] (by decide) (by decide)

/-- C5 counterexample: a sorted candidate batch whose first candidate starts
before the stored tail is merged into an interval that keeps the stored start,
which is then emitted ahead of a later candidate with a smaller start, so the
write set is not sorted even though the batch was. -/
theorem C5_counterexample :
    List.Pairwise startLE [(⟨0, 300, "up"⟩ : Interval), ⟨1, 400, "down"⟩] ∧
    reconcile (some ⟨100, 5, "up"⟩) [⟨0, 300, "up"⟩, ⟨1, 400, "down"⟩]
      = [⟨100, 200, "up"⟩, ⟨1, 400, "down"⟩] ∧
    ¬ List.Pairwise startLE
        (reconcile (some ⟨100, 5, "up"⟩) [⟨0, 300, "up"⟩, ⟨1, 400, "down"⟩]) :=
  ⟨by decide, by decide, by decide⟩

/-- Field characterization of an equality against a literally built
interval. -/
theorem mk_eq_iff (s d : Int) (st : String) (v : Interval) :
    (⟨s, d, st⟩ : Interval) = v ↔ s = v.start ∧ d = v.duration ∧ st = v.status := by
  cases v
  simp [Interval.mk.injEq]

/-- Two intervals agreeing on start, end and status are equal. -/
theorem interval_eq_of (u v : Interval) (hs : u.start = v.start)
    (he : u.endTime = v.endTime) (hst : u.status = v.status) : u = v := by
  have hd : u.duration = v.duration := by
    simp only [Interval.endTime] at he
    omega
  cases u
  cases v
  simp_all

/-- Helper for C4: the fold from a present tail ends in a present tail whose
end bounds the original end and the ends of all processed candidates, and
which is either the starting tail itself or agrees in end and status with
some processed candidate. -/
theorem fold_facts (cs : List Interval) :
    ∀ (orig : Option Interval) (t : Interval) (em : List Interval),
    ∃ u em2, reconcileFold orig (some t, em) cs = (some u, em2) ∧
      t.endTime ≤ u.endTime ∧
      (∀ x ∈ cs, x.endTime ≤ u.endTime) ∧
      (u = t ∨ ∃ x ∈ cs, u.endTime = x.endTime ∧ u.status = x.status) := by
  induction cs with
  | nil =>
    intro orig t em
    exact ⟨t, em, rfl, le_refl _, by simp, Or.inl rfl⟩
  | cons c cs ih =>
    intro orig t em
    by_cases hdlt : c.endTime < t.endTime
    · rw [fold_cons, step_discard orig t em c hdlt]
      obtain ⟨u, em2, heq, hle, hall, hprov⟩ := ih orig t em
      refine ⟨u, em2, heq, hle, ?_, ?_⟩
      · intro x hx
        rcases List.mem_cons.mp hx with h | h
        · rw [h]; exact le_trans (le_of_lt hdlt) hle
        · exact hall x h
      · rcases hprov with h | ⟨x, hx, h1, h2⟩
        · exact Or.inl h
        · exact Or.inr ⟨x, List.mem_cons_of_mem c hx, h1, h2⟩
    · by_cases hst : t.status = c.status
      · rw [fold_cons, step_merge orig t em c hdlt hst]
        obtain ⟨u, em2, heq, hle, hall, hprov⟩ :=
          ih orig ⟨t.start, c.endTime - t.start, t.status⟩ em
        have hle2 : c.endTime ≤ u.endTime := by
          rw [mk_endTime] at hle
          exact hle
        refine ⟨u, em2, heq, le_trans (not_lt.mp hdlt) hle2, ?_, ?_⟩
        · intro x hx
          rcases List.mem_cons.mp hx with h | h
          · rw [h]; exact hle2
          · exact hall x h
        · rcases hprov with h | ⟨x, hx, h1, h2⟩
          · refine Or.inr ⟨c, List.mem_cons_self c cs, ?_, ?_⟩
            · rw [h, mk_endTime]
            · rw [h]; exact hst
          · exact Or.inr ⟨x, List.mem_cons_of_mem c hx, h1, h2⟩
      · rw [fold_cons, step_keep orig t em c hdlt hst]
        obtain ⟨u, em2, heq, hle, hall, hprov⟩ :=
          ih orig c (if orig ≠ some t then em ++ [t] else em)
        refine ⟨u, em2, heq, le_trans (not_lt.mp hdlt) hle, ?_, ?_⟩
        · intro x hx
          rcases List.mem_cons.mp hx with h | h
          · rw [h]; exact hle
          · exact hall x h
        · rcases hprov with h | ⟨x, hx, h1, h2⟩
          · exact Or.inr ⟨c, List.mem_cons_self c cs, by rw [h], by rw [h]⟩
          · exact Or.inr ⟨x, List.mem_cons_of_mem c hx, h1, h2⟩

/-- Helper for C4: when candidate ends are value-distinct, a run that started
at the stored tail and has emitted something can never bring the current tail
back to the stored value. -/
theorem fold_ne_ret (t0 : Interval) (F : List Interval)
    (hinj : ∀ x ∈ F, ∀ y ∈ F, x.endTime = y.endTime → x = y) :
    ∀ (cs : List Interval), (∀ x ∈ cs, x ∈ F) →
    ∀ (u : Interval) (em : List Interval),
    t0.endTime ≤ u.endTime →
    (u = t0 ∨ ∃ x ∈ F, u.endTime = x.endTime ∧ u.status = x.status) →
    (em ≠ [] → u ≠ t0) →
    ∀ (v : Interval) (em2 : List Interval),
    reconcileFold (some t0) (some u, em) cs = (some v, em2) →
    em2 ≠ [] → v ≠ t0 := by
  intro cs
  induction cs with
  | nil =>
    intro _ u em _ _ hret v em2 heq
    rw [fold_nil] at heq
    have huv : u = v := Option.some.inj (congrArg Prod.fst heq)
    have hem : em = em2 := congrArg Prod.snd heq
    rw [← huv, ← hem]
    exact hret
  | cons c cs ih =>
    intro hmem u em hle hprov hret v em2 heq h2ne
    have hcF : c ∈ F := hmem c (List.mem_cons_self c cs)
    have hmem2 : ∀ x ∈ cs, x ∈ F := fun x hx => hmem x (List.mem_cons_of_mem c hx)
    by_cases hdlt : c.endTime < u.endTime
    · rw [fold_cons, step_discard (some t0) u em c hdlt] at heq
      exact ih hmem2 u em hle hprov hret v em2 heq h2ne
    · by_cases hst : u.status = c.status
      · rw [fold_cons, step_merge (some t0) u em c hdlt hst] at heq
        refine ih hmem2 ⟨u.start, c.endTime - u.start, u.status⟩ em ?_ ?_ ?_ v em2 heq h2ne
        · rw [mk_endTime]
          exact le_trans hle (not_lt.mp hdlt)
        · exact Or.inr ⟨c, hcF, by rw [mk_endTime], hst⟩
        · intro hemne hMt0
          refine (hret hemne) ?_
          rw [mk_eq_iff] at hMt0
          obtain ⟨ha, hb, hc⟩ := hMt0
          have h4 : u.endTime = u.start + u.duration := rfl
          have h5 : t0.endTime = t0.start + t0.duration := rfl
          have h6 : u.endTime ≤ c.endTime := not_lt.mp hdlt
          refine interval_eq_of u t0 ha ?_ hc
          omega
      · rw [fold_cons, step_keep (some t0) u em c hdlt hst] at heq
        have hcne : c ≠ t0 := by
          intro hct0
          have h6 : u.endTime ≤ c.endTime := not_lt.mp hdlt
          have h7 : c.endTime ≤ u.endTime := by rw [hct0]; exact hle
          have h8 : u.endTime = c.endTime := le_antisymm h6 h7
          rcases hprov with h | ⟨x, hxF, hxe, hxs⟩
          · exact hst (by rw [h, hct0])
          · have hxc : x = c := hinj x hxF c hcF (by rw [← hxe]; exact h8)
            exact hst (hxs.trans (congrArg Interval.status hxc))
        exact ih hmem2 c (if some t0 ≠ some u then em ++ [u] else em)
          (le_trans hle (not_lt.mp hdlt)) (Or.inr ⟨c, hcF, rfl, rfl⟩)
          (fun _ => hcne) v em2 heq h2ne

/-- Helper for C4: a run that starts and ends at the very same stored tail
emitted nothing, when candidate ends are value-distinct. -/
theorem run_ret (t0 : Interval) (cands : List Interval) (EM : List Interval)
    (hinj : ∀ x ∈ cands, ∀ y ∈ cands, x.endTime = y.endTime → x = y)
    (heq : reconcileFold (some t0) (some t0, []) cands = (some t0, EM)) :
    EM = [] := by
  by_contra hne
  exact (fold_ne_ret t0 cands hinj cands (fun x hx => hx) t0 [] (le_refl _) (Or.inl rfl)
    (fun h => absurd rfl h) t0 EM heq hne) rfl

/-- Helper for C4: a candidate ending strictly before the tail is discarded,
and one ending exactly at the tail end with the same status merges to the
tail itself, so such a batch leaves the fold state untouched. -/
theorem replay_inert (cs : List Interval) :
    ∀ (u : Interval) (em : List Interval),
    (∀ x ∈ cs, x.endTime < u.endTime ∨ (x.endTime = u.endTime ∧ u.status = x.status)) →
    reconcileFold (some u) (some u, em) cs = (some u, em) := by
  induction cs with
  | nil => intro u em _; rfl
  | cons c cs ih =>
    intro u em h
    rcases h c (List.mem_cons_self c cs) with hlt | ⟨hce, hcs⟩
    · rw [fold_cons, step_discard (some u) u em c hlt]
      exact ih u em fun x hx => h x (List.mem_cons_of_mem c hx)
    · rw [fold_cons, step_merge (some u) u em c (not_lt.mpr (le_of_eq hce.symm)) hcs]
      have hident : (⟨u.start, c.endTime - u.start, u.status⟩ : Interval) = u := by
        rw [hce]
        exact mk_self u
      rw [hident]
      exact ih u em fun x hx => h x (List.mem_cons_of_mem c hx)

/-- Helper for C4: an entirely inert batch produces the empty write set. -/
theorem replay_empty (u : Interval) (cs : List Interval)
    (h : ∀ x ∈ cs, x.endTime < u.endTime ∨ (x.endTime = u.endTime ∧ u.status = x.status)) :
    reconcile (some u) cs = [] := by
  unfold reconcile
  rw [replay_inert cs u [] h]
  simp [finalizeTail]

/-- The last emitted interval of a write set ending in `u` is `u`. -/
theorem lastTail_append (T : Option Interval) (em : List Interval) (u : Interval) :
    lastTail T (em ++ [u]) = some u := by
  unfold lastTail
  rw [List.getLast?_append_cons]
  simp

/-- C4 (amended): when the candidate ends are value-distinct (no two distinct
candidates share an end), rerunning the Reconciler with the stored tail
replaced by the last emitted interval (or the original stored tail when
nothing was emitted) and the same candidates emits the empty write set. -/
theorem C4_replay (T : Option Interval) (cands : List Interval)
    (hinj : ∀ x ∈ cands, ∀ y ∈ cands, x.endTime = y.endTime → x = y) :
    reconcile (lastTail T (reconcile T cands)) cands = [] := by
  by_cases hE : reconcile T cands = []
  · rw [hE]
    exact hE
  · cases T with
    | none =>
      cases cands with
      | nil => exact absurd rfl hE
      | cons c cs =>
        obtain ⟨u, em2, heq, hle, hall, hprov⟩ := fold_facts cs none c []
        have hfold : reconcileFold none (none, []) (c :: cs) = (some u, em2) := by
          rw [fold_cons, step_none]
          exact heq
        have hE2 : reconcile none (c :: cs) = em2 ++ [u] := by
          unfold reconcile
          rw [hfold]
          simp [finalizeTail]
        rw [hE2, lastTail_append]
        have hprov2 : ∃ x ∈ c :: cs, u.endTime = x.endTime ∧ u.status = x.status := by
          rcases hprov with h | ⟨x, hx, h1, h2⟩
          · exact ⟨c, List.mem_cons_self c cs, by rw [h], by rw [h]⟩
          · exact ⟨x, List.mem_cons_of_mem c hx, h1, h2⟩
        obtain ⟨x0, hx0, hx0e, hx0s⟩ := hprov2
        refine replay_empty u (c :: cs) ?_
        intro x hx
        have hxle : x.endTime ≤ u.endTime := by
          rcases List.mem_cons.mp hx with h | h
          · rw [h]; exact hle
          · exact hall x h
        rcases lt_or_eq_of_le hxle with h | h
        · exact Or.inl h
        · refine Or.inr ⟨h, ?_⟩
          have hxx0 : x = x0 := hinj x hx x0 hx0 (by rw [h, hx0e])
          rw [hxx0]
          exact hx0s
    | some t =>
      obtain ⟨u, em2, heq, hle, hall, hprov⟩ := fold_facts cands (some t) t []
      by_cases hut : u = t
      · rw [hut] at heq
        have hEeq : reconcile (some t) cands = [] := by
          unfold reconcile
          rw [heq, run_ret t cands em2 hinj heq]
          simp [finalizeTail]
        exact absurd hEeq hE
      · have hne : some t ≠ some u := fun h => hut (Option.some.inj h).symm
        have hE2 : reconcile (some t) cands = em2 ++ [u] := by
          unfold reconcile
          rw [heq]
          simp [finalizeTail, hne]
        rw [hE2, lastTail_append]
        rcases hprov with h | ⟨x0, hx0, hx0e, hx0s⟩
        · exact absurd h hut
        · refine replay_empty u cands ?_
          intro x hx
          rcases lt_or_eq_of_le (hall x hx) with h | h
          · exact Or.inl h
          · refine Or.inr ⟨h, ?_⟩
            have hxx0 : x = x0 := hinj x hx x0 hx0 (by rw [h, hx0e])
            rw [hxx0]
            exact hx0s

/-- Witness for C4 at a single extending candidate. -/
theorem C4_witness :
    reconcile
      (lastTail (some ⟨0, 10, "up"⟩) (reconcile (some ⟨0, 10, "up"⟩) [⟨5, 10, "up"⟩]))
      [⟨5, 10, "up"⟩] = [] :=
  C4_replay (some ⟨0, 10, "up"⟩) [⟨5, 10, "up"⟩] (by decide)

/-- C4 counterexample: a start-sorted batch of two status-flipping candidates
with equal ends is written out on the first run, but rerunning against the
last emitted interval emits one of them again, so replay is not a no-op as
claimed. -/
theorem C4_counterexample :
    List.Pairwise startLE [(⟨1, 9, "down"⟩ : Interval), ⟨2, 8, "up"⟩] ∧
    reconcile (some ⟨0, 10, "up"⟩) [⟨1, 9, "down"⟩, ⟨2, 8, "up"⟩]
      = [⟨1, 9, "down"⟩, ⟨2, 8, "up"⟩] ∧
    lastTail (some ⟨0, 10, "up"⟩) [⟨1, 9, "down"⟩, ⟨2, 8, "up"⟩] = some ⟨2, 8, "up"⟩ ∧
    reconcile (some ⟨2, 8, "up"⟩) [⟨1, 9, "down"⟩, ⟨2, 8, "up"⟩] = [⟨1, 9, "down"⟩] ∧
    reconcile
      (lastTail (some ⟨0, 10, "up"⟩)
        (reconcile (some ⟨0, 10, "up"⟩) [⟨1, 9, "down"⟩, ⟨2, 8, "up"⟩]))
      [⟨1, 9, "down"⟩, ⟨2, 8, "up"⟩] ≠ [] :=
  ⟨by decide, by decide, by decide, by decide, by decide⟩

/-- A local date and time as consumed by the rule functions of
`instance_control.py`: the weekday (Monday is 0), the hour, and the day of
the month, as exposed by a Python `datetime`. -/
structure PyDateTime where
  weekday : Nat
  hour : Nat
  day : Nat
deriving DecidableEq

/-- A value returned by a rule function: a Python string, or any non-string
value, which `get_action` handles defensively. -/
inductive RuleResult where
  | str : String → RuleResult
  | notAStr : RuleResult
deriving DecidableEq

/-- Embeds `START_OF_PLAY = 8` of `instance_control.py`. -/
def START_OF_PLAY : Nat := 8

/-- Embeds `CLOSE_OF_PLAY = 20` of `instance_control.py`. -/
def CLOSE_OF_PLAY : Nat := 20

/-- Embeds `AlwaysOnRule` of `instance_control.py`. -/
def AlwaysOnRule (_dt : PyDateTime) : RuleResult := .str "start"

/-- Embeds `OnDemandRule` of `instance_control.py`. -/
def OnDemandRule (dt : PyDateTime) : RuleResult :=
  if dt.weekday < 5 ∧ dt.hour = CLOSE_OF_PLAY then .str "stop" else .str "?"

/-- Embeds `WorkingHoursRule` of `instance_control.py`. -/
def WorkingHoursRule (dt : PyDateTime) : RuleResult :=
  if dt.weekday < 5 then
    if dt.hour = START_OF_PLAY then .str "start"
    else if dt.hour = CLOSE_OF_PLAY then .str "stop"
    else .str "?"
  else .str "?"

/-- Embeds `ManualRule` of `instance_control.py`. -/
def ManualRule (_dt : PyDateTime) : RuleResult := .str "?"

/-- Embeds `PatchTuesdayRule` of `instance_control.py`, with
`PATCH_START_HOUR = 2` and `PATCH_END_HOUR = 7`. -/
def PatchTuesdayRule (dt : PyDateTime) : RuleResult :=
  if dt.weekday = 2 ∧ 9 ≤ dt.day ∧ dt.day ≤ 15 then
    if dt.hour = 2 then .str "start"
    else if dt.hour = 7 then .str "stop?"
    else if 2 < dt.hour ∧ dt.hour < 7 then .str "leave"
    else .str "?"
  else .str "?"

/-- Embeds the `RULE_FUNCTIONS` registry of `instance_control.py`: the five
decorated rules, keyed by lowercased name, with `none` for a missing key as
`dict.get` returns. -/
def RULE_FUNCTIONS (name : String) : Option (PyDateTime → RuleResult) :=
  if name = "alwayson" then some AlwaysOnRule
  else if name = "ondemand" then some OnDemandRule
  else if name = "workinghours" then some WorkingHoursRule
  else if name = "manual" then some ManualRule
  else if name = "patchtuesday" then some PatchTuesdayRule
  else none

/-- Embeds the membership test `action in ['start', 'stop', 'leave']`. -/
def isActionWord (a : String) : Bool :=
  (a == "start") || (a == "stop") || (a == "leave")

/-- Embeds the loop of `get_action`: the running `result`, the remaining rule
names; missing names are skipped, a non-string return ends the loop with the
current result, a string is lowercased, a trailing question mark makes the
update tentative and continues, and without it the loop returns at once. -/
def get_action_go (funcs : String → Option (PyDateTime → RuleResult))
    (dt : PyDateTime) : String → List String → String
  | result, [] => result
  | result, r :: rs =>
    match funcs r.toLower with
    | none => get_action_go funcs dt result rs
    | some f =>
      match f dt with
      | .notAStr => result
      | .str a =>
        if a.toLower.endsWith "?" then
          get_action_go funcs dt
            (if isActionWord (a.toLower.dropRight 1) then a.toLower.dropRight 1 else result)
            rs
        else
          if isActionWord a.toLower then a.toLower else result

/-- Embeds the string branch of `get_action`: `re.split` on any of the four
separator characters followed by `strip` of each piece. -/
def split_rules (s : String) : List String :=
  (s.split fun c => c == ',' || c == '+' || c == ':' || c == '/').map String.trim

/-- Embeds `get_action(rules, dt)` of `instance_control.py`: `rules` is
either a separator-joined string or a list of rule names, and the result
starts from the default `leave`. -/
def get_action (rules : String ⊕ List String) (dt : PyDateTime) : String :=
  match rules with
  | .inl s => get_action_go RULE_FUNCTIONS dt "leave" (split_rules s)
  | .inr l => get_action_go RULE_FUNCTIONS dt "leave" l

/-- The claim wording of one rule evaluation: from the tentative result and
the returned value, the updated tentative result and whether evaluation
continues.  A non-string stops with the tentative result; a string ending in
a question mark updates only for the three action words and continues; any
other string updates only for the three action words and stops. -/
def ruleValueEffect (tentative : String) : RuleResult → String × Bool
  | .notAStr => (tentative, false)
  | .str a =>
    if a.toLower.endsWith "?" then
      (if isActionWord (a.toLower.dropRight 1) then a.toLower.dropRight 1 else tentative,
        true)
    else
      (if isActionWord a.toLower then a.toLower else tentative, false)

/-- The claim wording of the rule list evaluation, driven by
`ruleValueEffect` left to right with unknown names skipped. -/
def get_action_claim_go (funcs : String → Option (PyDateTime → RuleResult))
    (dt : PyDateTime) : String → List String → String
  | tentative, [] => tentative
  | tentative, r :: rs =>
    match funcs r.toLower with
    | none => get_action_claim_go funcs dt tentative rs
    | some f =>
      if (ruleValueEffect tentative (f dt)).2 then
        get_action_claim_go funcs dt (ruleValueEffect tentative (f dt)).1 rs
      else
        (ruleValueEffect tentative (f dt)).1

/-- The claim wording of `get_action`, from a tentative result initialised to
`leave`. -/
def get_action_claim (rules : String ⊕ List String) (dt : PyDateTime) : String :=
  match rules with
  | .inl s => get_action_claim_go RULE_FUNCTIONS dt "leave" (split_rules s)
  | .inr l => get_action_claim_go RULE_FUNCTIONS dt "leave" l

/-- The membership test accepts exactly the three action words. -/
theorem isActionWord_ok (a : String) (h : isActionWord a = true) :
    a = "start" ∨ a = "stop" ∨ a = "leave" := by
  simp only [isActionWord, Bool.or_eq_true, beq_iff_eq] at h
  exact or_assoc.mp h

/-- Helper for C10: the loop agrees with the claim wording of the loop. -/
theorem go_eq_claim (funcs : String → Option (PyDateTime → RuleResult))
    (dt : PyDateTime) (l : List String) :
    ∀ res : String, get_action_go funcs dt res l = get_action_claim_go funcs dt res l := by
  induction l with
  | nil => intro res; rfl
  | cons r rs ih =>
    intro res
    cases hf : funcs r.toLower with
    | none =>
      simp only [get_action_go, get_action_claim_go, hf]
      exact ih res
    | some f =>
      cases hv : f dt with
      | notAStr => simp [get_action_go, get_action_claim_go, hf, hv, ruleValueEffect]
      | str a =>
        cases hp : a.toLower.endsWith "?" with
        | true =>
          simp only [get_action_go, get_action_claim_go, hf, hv, ruleValueEffect, hp,
            if_true]
          exact ih _
        | false =>
          simp [get_action_go, get_action_claim_go, hf, hv, ruleValueEffect, hp]

/-- Helper for C10: the loop result stays among the three action words. -/
theorem go_mem (funcs : String → Option (PyDateTime → RuleResult))
    (dt : PyDateTime) (l : List String) :
    ∀ res : String, res = "start" ∨ res = "stop" ∨ res = "leave" →
    (get_action_go funcs dt res l = "start" ∨ get_action_go funcs dt res l = "stop" ∨
      get_action_go funcs dt res l = "leave") := by
  induction l with
  | nil => intro res h; exact h
  | cons r rs ih =>
    intro res h
    cases hf : funcs r.toLower with
    | none =>
      simp only [get_action_go, hf]
      exact ih res h
    | some f =>
      cases hv : f dt with
      | notAStr => simp only [get_action_go, hf, hv]; exact h
      | str a =>
        cases hp : a.toLower.endsWith "?" with
        | true =>
          simp only [get_action_go, hf, hv, hp, if_true]
          by_cases hw : isActionWord (a.toLower.dropRight 1) = true
          · rw [if_pos hw]
            exact ih _ (isActionWord_ok _ hw)
          · rw [if_neg hw]
            exact ih _ h
        | false =>
          simp only [get_action_go, hf, hv, hp, Bool.false_eq_true, if_false]
          by_cases hw : isActionWord a.toLower = true
          · rw [if_pos hw]
            exact isActionWord_ok _ hw
          · rw [if_neg hw]
            exact h

/-- C10: for every rules argument (a separator-joined string or a list of
rule names) and every date and time, `get_action` returns one of exactly
`start`, `stop` or `leave`, and it computes the left to right evaluation the
claim describes: a tentative result initialised to `leave`, unknown rule
names skipped, question-marked strings updating tentatively and continuing,
other strings updating for the three action words and stopping, and
non-string values stopping with the tentative result. -/
theorem C10_get_action :
    (∀ (rules : String ⊕ List String) (dt : PyDateTime),
        get_action rules dt = "start" ∨ get_action rules dt = "stop" ∨
        get_action rules dt = "leave") ∧
    (∀ (rules : String ⊕ List String) (dt : PyDateTime),
        get_action rules dt = get_action_claim rules dt) := by
  constructor
  · intro rules dt
    cases rules with
    | inl s => exact go_mem RULE_FUNCTIONS dt (split_rules s) "leave" (Or.inr (Or.inr rfl))
    | inr l => exact go_mem RULE_FUNCTIONS dt l "leave" (Or.inr (Or.inr rfl))
  · intro rules dt
    cases rules with
    | inl s => exact go_eq_claim RULE_FUNCTIONS dt (split_rules s) "leave"
    | inr l => exact go_eq_claim RULE_FUNCTIONS dt l "leave"

end LIC
